import Mathlib

/-!
Shallow embedding of `src/ai_speed_camera/_annotations_processor.py`.

Modelling conventions:
* Python floats are modelled as exact rationals (`ℚ`); `round(x, 2)` is modelled by
  `pyRound2` (round to an integer number of hundredths; the tie-breaking rule of
  Python's banker rounding is immaterial to the statements proved here).
* Python exceptions are modelled by `Except PyErr`; the constructor records which
  exception class the interpreter would raise (`TypeError` for operations on `None`,
  `ValueError` for `numpy.linspace` with a negative sample count, `IndexError` for
  out-of-range list indexing).
* The `(None, None)` sentinel returned by `_frame_to_box_lookup` for an unparseable
  time offset is modelled by `none : Option (ℤ × BB)`.
* The Python dict keyed by integer frame numbers is modelled by an association list
  with Python's dict-assignment semantics (`dictInsert`); the string-keyed metadata
  entries of the same dict are modelled as the named fields of `Trajectory`.
-/

/-- Python exception classes that the processor can raise. -/
inductive PyErr where
  | typeError
  | valueError
  | indexError
deriving DecidableEq

/-- A fully populated normalized bounding box (`_to_bb` shape). -/
@[ext]
structure BB where
  left : ℚ
  top : ℚ
  right : ℚ
  bottom : ℚ
deriving DecidableEq

/-- An input `normalizedBoundingBox` dict: each of the four fields may be absent
(missing fields default to 0 via `default_bb | frame["normalizedBoundingBox"]`). -/
structure RawBB where
  left : Option ℚ
  top : Option ℚ
  right : Option ℚ
  bottom : Option ℚ
deriving DecidableEq

/-- One element of an entity's `frames` array. -/
structure Frame where
  timeOffset : String
  normalizedBoundingBox : RawBB
deriving DecidableEq

/-- One element of the `objectAnnotations` array: `entity.description` plus `frames`. -/
structure Entity where
  description : String
  frames : List Frame
deriving DecidableEq

/-- The per-car record built by the processor: the frame-number-keyed part of the
Python dict plus its string-keyed metadata entries. -/
structure Trajectory where
  frames : List (ℤ × BB)
  entrance_time : String
  exit_time : String
  car_speed : ℚ
  rdt : ℚ
  index : ℕ
deriving DecidableEq

/-- Python `_line_midpoint(start, end) = (start + end) / 2`. -/
def _line_midpoint (start stop : ℚ) : ℚ := (start + stop) / 2

/-- Python `_bb_centroid`. -/
def _bb_centroid (bb : BB) : ℚ × ℚ :=
  (_line_midpoint bb.left bb.right, _line_midpoint bb.top bb.bottom)

/-- Integer square root by bounded search: the largest `k ≤ n` with `k * k ≤ n`.
Structurally recursive, so the kernel can evaluate it (unlike `Nat.sqrt`, whose
well-founded recursion blocks `decide`). -/
def natSqrt (n : ℕ) : ℕ :=
  (((List.range (n + 1)).filter (fun k => k * k ≤ n)).getLast?).getD 0

/-- Square root of a non-negative integer. -/
def intSqrt (z : ℤ) : ℤ := natSqrt z.toNat

/-- Exact square root of a perfect-square rational: the square root of the
numerator over the square root of the denominator. -/
def ratSqrt (q : ℚ) : ℚ := mkRat (intSqrt q.num) (natSqrt q.den)

/-- Python `_abs_distance(x1, x2) = math.sqrt((x2 - x1) ** 2)`.  The argument is an
exact square of a rational, so the exact square root `ratSqrt` computes the value
the float `math.sqrt` approximates. -/
def _abs_distance (x1 x2 : ℚ) : ℚ := ratSqrt ((x2 - x1) ^ 2)

/-- Python `round(x, 2)`. -/
def pyRound2 (x : ℚ) : ℚ := (round (x * 100) : ℚ) / 100

/-- Python `_mps_to_khm(mps) = round(mps * 3.6, 2)`. -/
def _mps_to_khm (mps : ℚ) : ℚ := pyRound2 (mps * 3.6)

/-- Longest prefix of decimal digits of a character list, with the remainder. -/
def takeDigits : List Char → List Char × List Char
  | [] => ([], [])
  | c :: cs =>
    if c.isDigit then
      let p := takeDigits cs
      (c :: p.1, p.2)
    else ([], c :: cs)

/-- Numeric value of a digit string. -/
def digitsVal (ds : List Char) : ℕ := ds.foldl (fun a c => 10 * a + (c.toNat - 48)) 0

/-- Python `_time_to_seconds(time) = seconds.match(time)` for the module pattern
`\d+(\.\d+)?`, composed with the `float(m.group())` conversion performed by the
caller: the numeric value of the maximal leading `digits(.digits)?` prefix, or
`none` when the text does not start with a digit. -/
def _time_to_seconds (time : String) : Option ℚ :=
  let p := takeDigits time.data
  if p.1 = [] then none
  else
    match p.2 with
    | '.' :: rest =>
      let f := takeDigits rest
      if f.1 = [] then some (digitsVal p.1 : ℚ)
      else some ((digitsVal p.1 : ℚ) + (digitsVal f.1 : ℚ) / 10 ^ f.1.length)
    | _ => some (digitsVal p.1 : ℚ)

/-- Python `int(...)`: truncation toward zero. -/
def pyInt (q : ℚ) : ℤ := if 0 ≤ q then ⌊q⌋ else ⌈q⌉

/-- Python `_seconds_to_frame_number(seconds, frame_rate) = int(seconds * frame_rate)`. -/
def _seconds_to_frame_number (seconds frame_rate : ℚ) : ℤ := pyInt (seconds * frame_rate)

/-- Python `_frame_number_to_seconds(frame_number, frame_rate)`. -/
def _frame_number_to_seconds (frame_number : ℤ) (frame_rate : ℚ) : ℚ :=
  (frame_number : ℚ) / frame_rate

/-- Python `_is_car(oa) = oa["entity"]["description"] == "car"`. -/
def _is_car (oa : Entity) : Bool := decide (oa.description = "car")

/-- Python module constant `default_bb`. -/
def default_bb : BB := ⟨0, 0, 0, 0⟩

/-- Python `_frame_to_box_lookup`: `(None, None)` (here `none`) when the time offset
does not parse, otherwise the frame number and the default-merged bounding box. -/
def _frame_to_box_lookup (frame : Frame) (frame_rate : ℚ) : Option (ℤ × BB) :=
  match _time_to_seconds frame.timeOffset with
  | some s =>
    let frame_number := _seconds_to_frame_number s frame_rate
    let bounding_box : BB :=
      { left := frame.normalizedBoundingBox.left.getD default_bb.left
        top := frame.normalizedBoundingBox.top.getD default_bb.top
        right := frame.normalizedBoundingBox.right.getD default_bb.right
        bottom := frame.normalizedBoundingBox.bottom.getD default_bb.bottom }
    some (frame_number, bounding_box)
  | none => none

/-- Python `_pairwise`: `s -> (s0,s1), (s1,s2), ...`. -/
def _pairwise (l : List α) : List (α × α) := l.zip l.tail

/-- Python dict item assignment `d[k] = v` on an insertion-ordered association list
with unique keys: overwrite in place if the key is present, else append. -/
def dictInsert : List (ℤ × BB) → ℤ → BB → List (ℤ × BB)
  | [], k, v => [(k, v)]
  | (k', v') :: d, k, v =>
    if k' = k then (k, v) :: d else (k', v') :: dictInsert d k v

/-- Python `_merge_lookups(lookup, frame_box)`. -/
def _merge_lookups (lookup : List (ℤ × BB)) (frame_box : ℤ × BB) : List (ℤ × BB) :=
  dictInsert lookup frame_box.1 frame_box.2

/-- `numpy.linspace(start, stop, num, endpoint=False)`: `num` evenly spaced values
`start + (stop - start) / num * j` for `j = 0 .. num - 1`. -/
def linspace (start stop : ℚ) (num : ℕ) : List ℚ :=
  (List.range num).map (fun j : ℕ => start + (stop - start) / (num : ℚ) * (j : ℚ))

/-- Python `_to_bb`. -/
def _to_bb (left top right bottom : ℚ) : BB :=
  { left := left, top := top, right := right, bottom := bottom }

/-- Python `_generate_bounding_boxes(start_bb, end_bb, steps)` for a non-negative
step count: per-coordinate `linspace(..., num=steps, endpoint=False)[1:]`, zipped
into boxes.  (A negative `steps` raises in `numpy.linspace`; that case is handled
by the caller model `_add_missing_frames_go`.) -/
def _generate_bounding_boxes (start_bb end_bb : BB) (steps : ℕ) : List BB :=
  let step_coords := fun (coord : BB → ℚ) =>
    (linspace (coord start_bb) (coord end_bb) steps).drop 1
  ((step_coords BB.left).zip
      ((step_coords BB.top).zip ((step_coords BB.right).zip (step_coords BB.bottom)))).map
    (fun x => _to_bb x.1 x.2.1 x.2.2.1 x.2.2.2)

/-- Python `enumerate(xs, start=n)` with an integer start. -/
def enumFromZ : ℤ → List α → List (ℤ × α)
  | _, [] => []
  | n, a :: as => (n, a) :: enumFromZ (n + 1) as

/-- The loop body of Python `_add_missing_frames`, with the accumulated `all_frames`
list threaded through.  A pair containing the `(None, None)` sentinel raises
`TypeError` at `steps = end_index - start_index`; a negative `steps` raises
`ValueError` inside `numpy.linspace`. -/
def _add_missing_frames_go :
    List (Option (ℤ × BB) × Option (ℤ × BB)) → List (ℤ × BB) →
      Except PyErr (List (ℤ × BB))
  | [], all_frames => .ok all_frames
  | (start, stop) :: rest, all_frames =>
    match start, stop with
    | some (start_index, start_bb), some (end_index, end_bb) =>
      let steps := end_index - start_index
      if steps < 0 then .error .valueError
      else
        let missing_bbs := _generate_bounding_boxes start_bb end_bb steps.toNat
        let missing_frames := enumFromZ (start_index + 1) missing_bbs
        _add_missing_frames_go rest
          (all_frames ++ (start_index, start_bb) :: missing_frames ++ [(end_index, end_bb)])
    | _, _ => .error .typeError

/-- Python `_add_missing_frames(frames)`. -/
def _add_missing_frames (frames : List (Option (ℤ × BB))) : Except PyErr (List (ℤ × BB)) :=
  _add_missing_frames_go (_pairwise frames) []

/-- Python `_relative_distance_traveled`. -/
def _relative_distance_traveled (bb_start bb_end : BB) : ℚ :=
  _abs_distance (_bb_centroid bb_start).1 (_bb_centroid bb_end).1

/-- Python `_calculate_speed(frames, frame_rate, distance, index, start_time,
end_time)`.  `frames[0]` / `frames[-1]` on an empty list raise `IndexError`; a
`(None, None)` endpoint raises `TypeError` inside `_relative_distance_traveled`.
The `index`, `start_time` and `end_time` arguments only feed a debug log record. -/
def _calculate_speed (frames : List (Option (ℤ × BB))) (frame_rate distance : ℚ)
    (index : ℕ) (start_time end_time : String) : Except PyErr ℚ :=
  match frames.head?, frames.getLast? with
  | some (some start), some (some stop) =>
    let rdt := _relative_distance_traveled start.2 stop.2
    let actual_distance_traveled := distance * rdt
    let time := _frame_number_to_seconds stop.1 frame_rate -
      _frame_number_to_seconds start.1 frame_rate
    let speed := if 0 < time then _mps_to_khm (actual_distance_traveled / time) else 0
    .ok speed
  | some _, some _ => .error .typeError
  | _, _ => .error .indexError

/-- Python `_parse_annotation(index, annotation, frame_rate, distance)` (final
`on` dropped from the Python name).  Builds the dense frame dict by folding
`_merge_lookups` over `_add_missing_frames`, then attaches the verbatim first/last
time offsets, the speed computed from the raw (non-interpolated) sample list, the
rdt and the index. -/
def _parse_annot (index : ℕ) (annot : Entity) (frame_rate distance : ℚ) :
    Except PyErr Trajectory := do
  let frames := annot.frames
  let frame_boxes := frames.map (fun f => _frame_to_box_lookup f frame_rate)
  let all_frame_boxes ← _add_missing_frames frame_boxes
  let frame_box_lookup := all_frame_boxes.foldl _merge_lookups []
  let entrance_time ← match frames.head? with
    | some f => Except.ok f.timeOffset
    | none => Except.error PyErr.indexError
  let exit_time ← match frames.getLast? with
    | some f => Except.ok f.timeOffset
    | none => Except.error PyErr.indexError
  let car_speed ← _calculate_speed frame_boxes frame_rate distance index
    entrance_time exit_time
  let rdt ← match frame_boxes.head?, frame_boxes.getLast? with
    | some (some s), some (some e) => Except.ok (_relative_distance_traveled s.2 e.2)
    | some _, some _ => Except.error PyErr.typeError
    | _, _ => Except.error PyErr.indexError
  Except.ok
    { frames := frame_box_lookup
      entrance_time := entrance_time
      exit_time := exit_time
      car_speed := car_speed
      rdt := rdt
      index := index }

/-- Python `_is_car_valid(car, min_speed, min_rdt)`. -/
def _is_car_valid (car : Trajectory) (min_speed min_rdt : ℚ) : Bool :=
  decide (min_speed ≤ car.car_speed) && decide (min_rdt ≤ car.rdt)

/-- Python `list(map(f, xs))`: force the map left to right, aborting on the first
exception. -/
def mapExcept (f : α → Except PyErr β) : List α → Except PyErr (List β)
  | [] => .ok []
  | a :: as => do
    let b ← f a
    let bs ← mapExcept f as
    .ok (b :: bs)

/-- Python `_extract_cars`, over the already-extracted `objectAnnotations` array
(the surrounding `response.annotationResults[0]` navigation is structural input
validation outside the claims considered here). -/
def _extract_cars (ar : List Entity) (frame_rate distance min_speed min_rdt : ℚ) :
    Except PyErr (List Trajectory) :=
  let cars := ar.filter _is_car
  match mapExcept (fun p => _parse_annot p.1 p.2 frame_rate distance) cars.enum with
  | .error e => .error e
  | .ok cars_frame_boxes_lookup =>
    .ok (cars_frame_boxes_lookup.filter (fun car => _is_car_valid car min_speed min_rdt))

/-- Component-wise linear interpolation `b0 + (b1 - b0) * k / steps`, the value the
spec prescribes for the frame `i0 + k` between two raw samples `steps` frames apart. -/
def lerpBB (b0 b1 : BB) (k steps : ℤ) : BB :=
  { left := b0.left + (b1.left - b0.left) * (k : ℚ) / (steps : ℚ)
    top := b0.top + (b1.top - b0.top) * (k : ℚ) / (steps : ℚ)
    right := b0.right + (b1.right - b0.right) * (k : ℚ) / (steps : ℚ)
    bottom := b0.bottom + (b1.bottom - b0.bottom) * (k : ℚ) / (steps : ℚ) }

/-- The segment that the `_add_missing_frames` loop appends for one sample pair. -/
def seg (x y : ℤ × BB) : List (ℤ × BB) :=
  x :: enumFromZ (x.1 + 1) (_generate_bounding_boxes x.2 y.2 (y.1 - x.1).toNat) ++ [y]

/-- The value of `_add_missing_frames` on a fully parsed sample list (no sentinel,
no negative step): the concatenation of the per-pair segments. -/
def allFramesPure : List (ℤ × BB) → List (ℤ × BB)
  | x :: y :: rest => seg x y ++ allFramesPure (y :: rest)
  | _ => []

/-- The dense frame dict built from an interpolated frame list. -/
def mergeFold (l : List (ℤ × BB)) : List (ℤ × BB) := l.foldl _merge_lookups []

instance {ε α : Type _} [DecidableEq ε] [DecidableEq α] : DecidableEq (Except ε α) :=
  fun a b =>
    match a, b with
    | .error e1, .error e2 =>
      match decEq e1 e2 with
      | isTrue h => isTrue (by rw [h])
      | isFalse h => isFalse (fun he => h (by cases he; rfl))
    | .ok v1, .ok v2 =>
      match decEq v1 v2 with
      | isTrue h => isTrue (by rw [h])
      | isFalse h => isFalse (fun he => h (by cases he; rfl))
    | .error _, .ok _ => isFalse (fun he => Except.noConfusion he)
    | .ok _, .error _ => isFalse (fun he => Except.noConfusion he)

/-- Concrete one-car document used to witness the orchestrator claims: a single
car entity with two samples, both at time offset `"0s"` (frame 0). -/
def wEnt : Entity :=
  ⟨"car", [⟨"0s", ⟨some 0, some 0, some 0, some 0⟩⟩, ⟨"0s", ⟨some 1, none, some 1, none⟩⟩]⟩

/-- The trajectory the pipeline builds for `wEnt`. -/
def wTraj : Trajectory := ⟨[(0, ⟨1, 0, 1, 0⟩)], "0s", "0s", 0, 1, 0⟩

/-! Basic lemmas about the interpolation segment builders. -/

lemma drop_one_map (f : α → β) (l : List α) : (l.map f).drop 1 = (l.drop 1).map f := by
  cases l <;> simp

lemma zip_map_same (f : α → β) (g : α → γ) (l : List α) :
    (l.map f).zip (l.map g) = l.map (fun a => (f a, g a)) := by
  induction l with
  | nil => rfl
  | cons a t ih => simp [ih]

lemma gen_bb_eq (b0 b1 : BB) (s : ℕ) :
    _generate_bounding_boxes b0 b1 s =
      ((List.range s).drop 1).map (fun j : ℕ => lerpBB b0 b1 (j : ℤ) (s : ℤ)) := by
  simp only [_generate_bounding_boxes, linspace]
  rw [drop_one_map, drop_one_map, drop_one_map, drop_one_map,
    zip_map_same, zip_map_same, zip_map_same, List.map_map]
  refine List.map_congr_left fun j _ => ?_
  ext <;> (simp only [Function.comp_apply, _to_bb, lerpBB]; push_cast; ring)

lemma lerpBB_zero (b0 b1 : BB) (s : ℤ) : lerpBB b0 b1 0 s = b0 := by
  unfold lerpBB; ext <;> simp

lemma lerpBB_full (b0 b1 : BB) (s : ℤ) (hs : s ≠ 0) : lerpBB b0 b1 s s = b1 := by
  have h : (s : ℚ) ≠ 0 := Int.cast_ne_zero.mpr hs
  unfold lerpBB
  ext <;> (field_simp)

lemma enumFromZ_map_range (g : ℕ → α) (n : ℤ) (t : ℕ) :
    enumFromZ n ((List.range t).map g) = (List.range t).map (fun j : ℕ => (n + (j : ℤ), g j)) := by
  induction t generalizing n g with
  | zero => rfl
  | succ t ih =>
    rw [List.range_succ_eq_map, List.map_cons, List.map_cons, List.map_map, List.map_map]
    show (n, g 0) :: enumFromZ (n + 1) _ = _
    rw [ih]
    refine congrArg₂ _ (by simp) (List.map_congr_left fun j _ => ?_)
    simp only [Function.comp_apply, Prod.mk.injEq, Nat.cast_succ]
    exact ⟨by ring, trivial⟩

lemma enumFromZ_mem (n : ℤ) (l : List α) (q : ℤ × α) (h : q ∈ enumFromZ n l) :
    n ≤ q.1 ∧ q.1 < n + l.length := by
  induction l generalizing n with
  | nil => simp [enumFromZ] at h
  | cons a t ih =>
    simp only [enumFromZ, List.mem_cons] at h
    rcases h with h | h
    · subst h
      refine ⟨le_refl _, ?_⟩
      show n < n + ((t.length + 1 : ℕ) : ℤ)
      push_cast
      omega
    · have := ih (n + 1) h
      show n ≤ q.1 ∧ q.1 < n + ((t.length + 1 : ℕ) : ℤ)
      push_cast
      omega

lemma seg_eq (x y : ℤ × BB) (h : x.1 < y.1) :
    seg x y = (List.range ((y.1 - x.1).toNat + 1)).map
      (fun k : ℕ => ((x.1 + (k : ℤ), lerpBB x.2 y.2 (k : ℤ) (y.1 - x.1)) : ℤ × BB)) := by
  have hcast : ((y.1 - x.1).toNat : ℤ) = y.1 - x.1 := Int.toNat_of_nonneg (by omega)
  obtain ⟨t, ht⟩ : ∃ t, (y.1 - x.1).toNat = t + 1 := ⟨(y.1 - x.1).toNat - 1, by omega⟩
  have hst : ((t + 1 : ℕ) : ℤ) = y.1 - x.1 := by rw [← hcast, ht]
  rw [seg, gen_bb_eq, ht, hst]
  rw [show List.range (t + 1 + 1) = List.range (t + 1) ++ [t + 1] from List.range_succ (t + 1)]
  rw [List.range_succ_eq_map]
  rw [List.drop_one, List.tail_cons, List.map_map]
  rw [enumFromZ_map_range]
  rw [List.map_append, List.map_cons, List.map_map]
  simp only [List.map_cons, List.map_nil, Nat.cast_zero, add_zero, lerpBB_zero, Prod.mk.eta,
    List.cons_append, List.nil_append]
  rw [hst, show x.1 + (y.1 - x.1) = y.1 by ring, lerpBB_full _ _ _ (by omega), Prod.mk.eta]
  refine congrArg₂ _ rfl (congrArg₂ _ (List.map_congr_left fun j _ => ?_) rfl)
  simp only [Function.comp_apply, Prod.mk.injEq, Nat.cast_succ]
  exact ⟨by ring, trivial⟩

lemma pairwise_cons_cons (a b : α) (t : List α) :
    _pairwise (a :: b :: t) = (a, b) :: _pairwise (b :: t) := rfl

lemma pairwise_nil : _pairwise ([] : List α) = [] := rfl

lemma pairwise_singleton (a : α) : _pairwise [a] = [] := rfl

lemma except_map_ok (f : α → β) (a : α) :
    (Except.ok a : Except PyErr α).map f = .ok (f a) := rfl

lemma except_map_error (f : α → β) (e : PyErr) :
    (Except.error e : Except PyErr α).map f = .error e := rfl

lemma go_append (pairs : List (Option (ℤ × BB) × Option (ℤ × BB))) (acc : List (ℤ × BB)) :
    _add_missing_frames_go pairs acc =
      (_add_missing_frames_go pairs []).map (fun r => acc ++ r) := by
  induction pairs generalizing acc with
  | nil => simp [_add_missing_frames_go, except_map_ok]
  | cons p rest ih =>
    obtain ⟨s, e⟩ := p
    match s, e with
    | none, _ =>
      simp [_add_missing_frames_go, except_map_error]
    | some (si, sb), none =>
      simp [_add_missing_frames_go, except_map_error]
    | some (si, sb), some (ei, eb) =>
      by_cases hst : ei - si < 0
      · simp [_add_missing_frames_go, hst, except_map_error]
      · simp only [_add_missing_frames_go, hst, if_false, List.nil_append]
        rw [ih, ih ((si, sb) :: enumFromZ (si + 1)
          (_generate_bounding_boxes sb eb (ei - si).toNat) ++ [(ei, eb)])]
        cases _add_missing_frames_go rest [] with
        | error e => rfl
        | ok r => simp [except_map_ok, List.append_assoc]

lemma add_missing_frames_map_some (l : List (ℤ × BB))
    (h : l.Chain' (fun a b => a.1 ≤ b.1)) :
    _add_missing_frames (l.map some) = .ok (allFramesPure l) := by
  induction l with
  | nil => rfl
  | cons x t ih =>
    cases t with
    | nil => rfl
    | cons y rest =>
      obtain ⟨hxy, htail⟩ := List.chain'_cons.mp h
      have hrec := ih htail
      obtain ⟨x1, x2⟩ := x
      obtain ⟨y1, y2⟩ := y
      simp only at hxy
      unfold _add_missing_frames at hrec ⊢
      rw [List.map_cons, List.map_cons, pairwise_cons_cons,
        ← List.map_cons some (y1, y2) rest]
      simp only [_add_missing_frames_go, show ¬(y1 - x1 < 0) from by omega, if_false,
        List.nil_append]
      rw [go_append, hrec, except_map_ok]
      rfl

/-! Lemmas about the Python-dict model. -/

lemma lookup_dictInsert_self (d : List (ℤ × BB)) (k : ℤ) (v : BB) :
    (dictInsert d k v).lookup k = some v := by
  induction d with
  | nil => simp [dictInsert, List.lookup]
  | cons p d ih =>
    obtain ⟨k', v'⟩ := p
    by_cases hk : k' = k
    · simp [dictInsert, hk, List.lookup]
    · simp only [dictInsert, hk, if_false]
      rw [List.lookup_cons]
      simp [show (k == k') = false from by simpa using fun h => hk h.symm, ih]

lemma lookup_dictInsert_ne (d : List (ℤ × BB)) (k k' : ℤ) (v : BB) (h : k' ≠ k) :
    (dictInsert d k v).lookup k' = d.lookup k' := by
  induction d with
  | nil => simp [dictInsert, List.lookup, show (k' == k) = false from by simpa using h]
  | cons p d ih =>
    obtain ⟨k0, v0⟩ := p
    by_cases hk : k0 = k
    · subst hk
      simp only [dictInsert, if_true]
      rw [List.lookup_cons, List.lookup_cons]
      simp [show (k' == k0) = false from by simpa using h]
    · simp only [dictInsert, hk, if_false]
      rw [List.lookup_cons, List.lookup_cons]
      by_cases hk0 : k' = k0
      · simp [hk0]
      · simp [show (k' == k0) = false from by simpa using hk0, ih]

lemma keys_dictInsert (d : List (ℤ × BB)) (k n : ℤ) (v : BB) :
    n ∈ (dictInsert d k v).map Prod.fst ↔ n = k ∨ n ∈ d.map Prod.fst := by
  induction d with
  | nil => simp [dictInsert]
  | cons p d ih =>
    obtain ⟨k0, v0⟩ := p
    by_cases hk : k0 = k
    · subst hk
      simp [dictInsert]
    · simp only [dictInsert, hk, if_false, List.map_cons, List.mem_cons, ih]
      tauto

lemma nodup_keys_dictInsert (d : List (ℤ × BB)) (k : ℤ) (v : BB)
    (h : (d.map Prod.fst).Nodup) : ((dictInsert d k v).map Prod.fst).Nodup := by
  induction d with
  | nil => simp [dictInsert]
  | cons p d ih =>
    obtain ⟨k0, v0⟩ := p
    simp only [List.map_cons, List.nodup_cons] at h
    by_cases hk : k0 = k
    · subst hk
      simpa [dictInsert] using h
    · simp only [dictInsert, hk, if_false, List.map_cons, List.nodup_cons]
      refine ⟨fun hmem => ?_, ih h.2⟩
      rcases (keys_dictInsert d k k0 v).mp hmem with h' | h'
      · exact hk h'
      · exact h.1 h'

lemma keys_foldl_merge (L : List (ℤ × BB)) (d : List (ℤ × BB)) (n : ℤ) :
    n ∈ ((L.foldl _merge_lookups d).map Prod.fst) ↔
      n ∈ d.map Prod.fst ∨ n ∈ L.map Prod.fst := by
  induction L generalizing d with
  | nil => simp
  | cons p L ih =>
    rw [List.foldl_cons, ih]
    simp only [_merge_lookups, keys_dictInsert, List.map_cons, List.mem_cons]
    tauto

lemma nodup_keys_foldl_merge (L : List (ℤ × BB)) (d : List (ℤ × BB))
    (h : (d.map Prod.fst).Nodup) : ((L.foldl _merge_lookups d).map Prod.fst).Nodup := by
  induction L generalizing d with
  | nil => exact h
  | cons p L ih =>
    rw [List.foldl_cons]
    exact ih _ (nodup_keys_dictInsert _ _ _ h)

lemma lookup_foldl_merge (L : List (ℤ × BB)) (d : List (ℤ × BB)) (n : ℤ) (v : BB)
    (hv : ∀ q ∈ L, q.1 = n → q.2 = v) :
    (L.foldl _merge_lookups d).lookup n =
      if n ∈ L.map Prod.fst then some v else d.lookup n := by
  induction L generalizing d with
  | nil => simp
  | cons p L ih =>
    obtain ⟨k, w⟩ := p
    rw [List.foldl_cons]
    by_cases hk : k = n
    · subst hk
      have hw : w = v := hv (k, w) (List.mem_cons_self _ _) rfl
      subst hw
      rw [ih _ fun q hq => hv q (List.mem_cons_of_mem _ hq)]
      by_cases hn : k ∈ L.map Prod.fst
      · simp [hn]
      · simp [hn, _merge_lookups, lookup_dictInsert_self]
    · rw [ih _ fun q hq => hv q (List.mem_cons_of_mem _ hq)]
      have : (_merge_lookups d (k, w)).lookup n = d.lookup n :=
        lookup_dictInsert_ne d k n w fun h => hk h.symm
      by_cases hn : n ∈ L.map Prod.fst
      · simp [hn, hk]
      · simp only [this, hn, if_false, List.map_cons, List.mem_cons]
        simp [show ¬n = k from fun h => hk h.symm, hn]

lemma countP_key_eq_one (ks : List ℤ) (n : ℤ) (hnd : ks.Nodup) (hmem : n ∈ ks) :
    ks.countP (fun k => decide (k = n)) = 1 := by
  induction ks with
  | nil => simp at hmem
  | cons k ks ih =>
    simp only [List.nodup_cons] at hnd
    rcases List.mem_cons.mp hmem with h | h
    · subst h
      rw [List.countP_cons_of_pos _ _ (by simp)]
      rw [List.countP_eq_zero.mpr fun a ha => by
        simp only [decide_eq_true_eq]
        exact fun he => hnd.1 (he ▸ ha)]
    · rw [List.countP_cons_of_neg _ _ (by
        simp only [decide_eq_true_eq]
        exact fun he => hnd.1 (he ▸ h)), ih hnd.2 h]

/-! Key-structure lemmas for the interpolated frame list. -/

lemma gen_bb_zero (b0 b1 : BB) : _generate_bounding_boxes b0 b1 0 = [] := by
  simp [_generate_bounding_boxes, linspace]

lemma seg_degenerate (x y : ℤ × BB) (h : ¬ x.1 < y.1) : seg x y = [x, y] := by
  rw [seg, show (y.1 - x.1).toNat = 0 from by omega, gen_bb_zero]
  rfl

lemma seg_key_value (x y : ℤ × BB) (h : x.1 < y.1) (q : ℤ × BB) (hq : q ∈ seg x y) :
    x.1 ≤ q.1 ∧ q.1 ≤ y.1 ∧ q.2 = lerpBB x.2 y.2 (q.1 - x.1) (y.1 - x.1) := by
  rw [seg_eq x y h] at hq
  obtain ⟨k, hk, rfl⟩ := List.mem_map.mp hq
  rw [List.mem_range] at hk
  refine ⟨?_, ?_, ?_⟩
  · show x.1 ≤ x.1 + (k : ℤ)
    omega
  · show x.1 + (k : ℤ) ≤ y.1
    omega
  · show lerpBB x.2 y.2 (k : ℤ) (y.1 - x.1) = lerpBB x.2 y.2 (x.1 + (k : ℤ) - x.1) (y.1 - x.1)
    rw [show x.1 + (k : ℤ) - x.1 = (k : ℤ) from by ring]

lemma seg_covers (x y : ℤ × BB) (h : x.1 < y.1) (n : ℤ) (h1 : x.1 ≤ n) (h2 : n ≤ y.1) :
    n ∈ (seg x y).map Prod.fst := by
  rw [seg_eq x y h, List.map_map]
  refine List.mem_map.mpr ⟨(n - x.1).toNat, List.mem_range.mpr (by omega), ?_⟩
  show x.1 + ((n - x.1).toNat : ℤ) = n
  omega

lemma allFramesPure_key_lb (c : ℤ) (l : List (ℤ × BB)) :
    (∀ p ∈ l, c ≤ p.1) → ∀ q ∈ allFramesPure l, c ≤ q.1 := by
  induction l with
  | nil =>
    intro _ q hq
    rw [show allFramesPure [] = [] from rfl] at hq
    simp at hq
  | cons x t ih =>
    cases t with
    | nil =>
      intro _ q hq
      rw [show allFramesPure [x] = [] from rfl] at hq
      simp at hq
    | cons y rest =>
      intro hlb q hq
      rw [show allFramesPure (x :: y :: rest) = seg x y ++ allFramesPure (y :: rest) from rfl,
        List.mem_append] at hq
      rcases hq with hq | hq
      · by_cases hxy : x.1 < y.1
        · have h1 := (seg_key_value x y hxy q hq).1
          have hcx := hlb x (by simp)
          omega
        · rw [seg_degenerate x y hxy] at hq
          rcases List.mem_cons.mp hq with h | h
          · rw [h]
            exact hlb x (by simp)
          · rcases List.mem_cons.mp h with h2 | h2
            · rw [h2]
              exact hlb y (by simp)
            · simp at h2
      · exact ih (fun p hp => hlb p (List.mem_cons_of_mem _ hp)) q hq

lemma allFramesPure_head_key (b : ℤ × BB) (m : List (ℤ × BB))
    (hmono : (b :: m).Pairwise (fun p q : ℤ × BB => p.1 < q.1))
    (q : ℤ × BB) (hq : q ∈ allFramesPure (b :: m)) (hk : q.1 = b.1) : q.2 = b.2 := by
  cases m with
  | nil =>
    rw [show allFramesPure [b] = [] from rfl] at hq
    simp at hq
  | cons c m' =>
    obtain ⟨hhead, htail⟩ := List.pairwise_cons.mp hmono
    have hbc : b.1 < c.1 := hhead c (by simp)
    rw [show allFramesPure (b :: c :: m') = seg b c ++ allFramesPure (c :: m') from rfl,
      List.mem_append] at hq
    rcases hq with hq | hq
    · obtain ⟨h1, h2, h3⟩ := seg_key_value b c hbc q hq
      rw [h3, hk, show b.1 - b.1 = (0 : ℤ) from by ring, lerpBB_zero]
    · have hlb : ∀ p ∈ c :: m', c.1 ≤ p.1 := by
        intro p hp
        rcases List.mem_cons.mp hp with rfl | hp
        · exact le_refl _
        · exact le_of_lt ((List.pairwise_cons.mp htail).1 p hp)
      have hcq := allFramesPure_key_lb c.1 (c :: m') hlb q hq
      exfalso
      omega

lemma allFramesPure_value : ∀ (l : List (ℤ × BB)),
    l.Pairwise (fun p q : ℤ × BB => p.1 < q.1) →
    ∀ (pre post : List (ℤ × BB)) (x y : ℤ × BB), l = pre ++ x :: y :: post →
    ∀ q ∈ allFramesPure l, x.1 ≤ q.1 → q.1 ≤ y.1 →
    q.2 = lerpBB x.2 y.2 (q.1 - x.1) (y.1 - x.1) := by
  intro l
  induction l with
  | nil =>
    intro _ pre post x y hl
    exact absurd hl (by simp)
  | cons a l' ih =>
    intro hmono pre post x y hl q hq h1 h2
    cases l' with
    | nil =>
      exfalso
      have := congrArg List.length hl
      simp at this
      omega
    | cons b l'' =>
      obtain ⟨hhead, htail⟩ := List.pairwise_cons.mp hmono
      have hab : a.1 < b.1 := hhead b (by simp)
      rw [show allFramesPure (a :: b :: l'') = seg a b ++ allFramesPure (b :: l'') from rfl,
        List.mem_append] at hq
      cases pre with
      | nil =>
        simp only [List.nil_append, List.cons.injEq] at hl
        obtain ⟨hax, hby, hpost⟩ := hl
        subst hax
        subst hby
        subst hpost
        rcases hq with hq | hq
        · exact (seg_key_value a b hab q hq).2.2
        · have hlb : ∀ p ∈ b :: l'', b.1 ≤ p.1 := by
            intro p hp
            rcases List.mem_cons.mp hp with h | h
            · rw [h]
            · exact le_of_lt ((List.pairwise_cons.mp htail).1 p h)
          have hq1 := allFramesPure_key_lb b.1 (b :: l'') hlb q hq
          have hky : q.1 = b.1 := le_antisymm h2 hq1
          have hval := allFramesPure_head_key b l'' htail q hq hky
          rw [hval, hky, lerpBB_full _ _ _ (by omega)]
      | cons p pre' =>
        simp only [List.cons_append, List.cons.injEq] at hl
        obtain ⟨hap, hl'⟩ := hl
        rcases hq with hq | hq
        · obtain ⟨hq1, hq2, hq3⟩ := seg_key_value a b hab q hq
          cases pre' with
          | nil =>
            simp only [List.nil_append, List.cons.injEq] at hl'
            obtain ⟨hbx, hl''⟩ := hl'
            subst hbx
            have hkq : q.1 = b.1 := le_antisymm hq2 h1
            rw [hq3, hkq, lerpBB_full _ _ _ (show b.1 - a.1 ≠ 0 from by omega),
              show b.1 - b.1 = (0 : ℤ) from by ring, lerpBB_zero]
          | cons c pre'' =>
            simp only [List.cons_append, List.cons.injEq] at hl'
            obtain ⟨hbc, hl''⟩ := hl'
            have hx_mem : x ∈ l'' := by
              rw [hl'']
              simp
            have hbx : b.1 < x.1 := (List.pairwise_cons.mp htail).1 x hx_mem
            exfalso
            omega
        · exact ih htail pre' post x y hl' q hq h1 h2

lemma allFramesPure_covers : ∀ (l : List (ℤ × BB)) (pre post : List (ℤ × BB)) (x y : ℤ × BB),
    l = pre ++ x :: y :: post → x.1 < y.1 → ∀ n : ℤ, x.1 ≤ n → n ≤ y.1 →
    n ∈ (allFramesPure l).map Prod.fst := by
  intro l
  induction l with
  | nil =>
    intro pre post x y hl
    exact absurd hl (by simp)
  | cons a l' ih =>
    intro pre post x y hl hxy n h1 h2
    cases l' with
    | nil =>
      exfalso
      have := congrArg List.length hl
      simp at this
      omega
    | cons b l'' =>
      rw [show allFramesPure (a :: b :: l'') = seg a b ++ allFramesPure (b :: l'') from rfl,
        List.map_append, List.mem_append]
      cases pre with
      | nil =>
        simp only [List.nil_append, List.cons.injEq] at hl
        obtain ⟨hax, hby, hpost⟩ := hl
        subst hax
        subst hby
        exact Or.inl (seg_covers a b hxy n h1 h2)
      | cons p pre' =>
        simp only [List.cons_append, List.cons.injEq] at hl
        exact Or.inr (ih pre' post x y hl.2 hxy n h1 h2)

lemma exists_cover_pair : ∀ (l : List (ℤ × BB)) (x z : ℤ × BB), l.head? = some x →
    l.getLast? = some z → ∀ n : ℤ, x.1 ≤ n → n ≤ z.1 → 2 ≤ l.length →
    ∃ pre post u v, l = pre ++ u :: v :: post ∧ u.1 ≤ n ∧ n ≤ v.1 := by
  intro l
  induction l with
  | nil =>
    intro x z hx
    simp at hx
  | cons a l' ih =>
    intro x z hx hz n h1 h2 hlen
    rw [List.head?_cons, Option.some.injEq] at hx
    subst hx
    cases l' with
    | nil => simp at hlen
    | cons b l'' =>
      by_cases hnb : n ≤ b.1
      · exact ⟨[], l'', a, b, rfl, h1, hnb⟩
      · push_neg at hnb
        cases l'' with
        | nil =>
          exfalso
          rw [List.getLast?_cons_cons, List.getLast?_singleton, Option.some.injEq] at hz
          rw [← hz] at h2
          omega
        | cons c l''' =>
          have hz' : (b :: c :: l''').getLast? = some z :=
            (List.getLast?_cons_cons).symm.trans hz
          obtain ⟨pre, post, u, v, heq, hu, hv⟩ :=
            ih b z rfl hz' n (le_of_lt hnb) h2 (by simp)
          exact ⟨a :: pre, post, u, v, by rw [List.cons_append, heq], hu, hv⟩

/-! Helper lemmas for the error-propagation and pipeline claims. -/

lemma filter_range_sq (a : ℕ) : ∀ n, a < n →
    (List.range n).filter (fun k => k * k ≤ a * a) = List.range (a + 1) := by
  intro n
  induction n with
  | zero => omega
  | succ m ih =>
    intro h
    rcases Nat.lt_or_ge a m with ham | ham
    · rw [List.range_succ, List.filter_append, ih ham]
      have hm : ¬ (m * m ≤ a * a) := by nlinarith
      simp [List.filter, hm]
    · have hma : m = a := by omega
      subst hma
      exact List.filter_eq_self.mpr fun k hk => by
        have hk' : k ≤ m := by
          have := List.mem_range.mp hk
          omega
        simpa using Nat.mul_le_mul hk' hk'

lemma natSqrt_eq (a : ℕ) : natSqrt (a * a) = a := by
  rw [natSqrt, filter_range_sq a (a * a + 1) (by nlinarith), List.range_succ,
    List.getLast?_concat]
  rfl

lemma intSqrt_eq (n : ℤ) : intSqrt (n * n) = n.natAbs := by
  rw [intSqrt, ← Int.natAbs_mul_self, Int.toNat_natCast, natSqrt_eq]

lemma ratSqrt_sq (q : ℚ) : ratSqrt (q * q) = |q| := by
  rw [ratSqrt, Rat.mul_self_num, Rat.mul_self_den, intSqrt_eq, natSqrt_eq, Rat.abs_def,
    Rat.divInt_ofNat]

lemma abs_dist_eq (x1 x2 : ℚ) : _abs_distance x1 x2 = |x2 - x1| := by
  rw [_abs_distance, pow_two, ratSqrt_sq]

lemma mem_of_getLast? {l : List α} {a : α} (h : l.getLast? = some a) : a ∈ l := by
  obtain ⟨hne, heq⟩ := List.mem_getLast?_eq_getLast (show a ∈ l.getLast? from h)
  rw [heq]
  exact List.getLast_mem hne

lemma ftbl_none_iff (f : Frame) (fr : ℚ) :
    _frame_to_box_lookup f fr = none ↔ _time_to_seconds f.timeOffset = none := by
  unfold _frame_to_box_lookup
  cases h : _time_to_seconds f.timeOffset <;> simp [h]

lemma amf_none (fb : List (Option (ℤ × BB))) :
    (none ∈ fb) → 2 ≤ fb.length → ∃ e, _add_missing_frames fb = .error e := by
  induction fb with
  | nil =>
    intro h
    simp at h
  | cons a t ih =>
    intro hmem hlen
    cases t with
    | nil => simp at hlen
    | cons b rest =>
      unfold _add_missing_frames
      rw [pairwise_cons_cons]
      cases a with
      | none => exact ⟨.typeError, rfl⟩
      | some pa =>
        cases b with
        | none =>
          obtain ⟨pa1, pa2⟩ := pa
          exact ⟨.typeError, rfl⟩
        | some pb =>
          obtain ⟨pa1, pa2⟩ := pa
          obtain ⟨pb1, pb2⟩ := pb
          have hmem2 : (none : Option (ℤ × BB)) ∈ some (pb1, pb2) :: rest := by
            rcases List.mem_cons.mp hmem with h | h
            · simp at h
            · exact h
          have hrest : rest ≠ [] := by
            rcases List.mem_cons.mp hmem2 with h | h
            · simp at h
            · intro he
              rw [he] at h
              simp at h
          by_cases hst : pb1 - pa1 < 0
          · exact ⟨.valueError, by simp [_add_missing_frames_go, hst]⟩
          · obtain ⟨e, he⟩ := ih hmem2 (by
              cases rest with
              | nil => exact absurd rfl hrest
              | cons c r => simp)
            refine ⟨e, ?_⟩
            simp only [_add_missing_frames_go, hst, if_false, List.nil_append]
            unfold _add_missing_frames at he
            rw [go_append, he]
            rfl

lemma parse_annot_amf_error (idx : ℕ) (annot : Entity) (fr dist : ℚ) (e : PyErr)
    (h : _add_missing_frames (annot.frames.map fun f => _frame_to_box_lookup f fr)
      = .error e) :
    _parse_annot idx annot fr dist = .error e := by
  simp only [_parse_annot]
  rw [h]
  rfl

lemma parse_annot_single_unparseable (idx : ℕ) (annot : Entity) (fr dist : ℚ) (f0 : Frame)
    (hfr : annot.frames = [f0]) (hn : _frame_to_box_lookup f0 fr = none) :
    _parse_annot idx annot fr dist = .error .typeError := by
  simp only [_parse_annot]
  rw [hfr]
  simp only [List.map_cons, List.map_nil, hn]
  rfl

lemma mem_enumFrom_of_mem {l : List α} {x : α} (h : x ∈ l) :
    ∀ n : ℕ, ∃ i, (i, x) ∈ l.enumFrom n := by
  induction l with
  | nil => simp at h
  | cons a t ih =>
    intro n
    rcases List.mem_cons.mp h with h | h
    · exact ⟨n, by rw [h]; exact List.mem_cons_self _ _⟩
    · obtain ⟨i, hi⟩ := ih h (n + 1)
      exact ⟨i, List.mem_cons_of_mem _ hi⟩

lemma mapExcept_error_of_mem (f : α → Except PyErr β) (l : List α) (p : α)
    (hp : p ∈ l) (hf : ∃ e0, f p = .error e0) : ∃ e, mapExcept f l = .error e := by
  induction l with
  | nil => simp at hp
  | cons a t ih =>
    cases hfa : f a with
    | error e => exact ⟨e, by simp [mapExcept, hfa, bind, Except.bind]⟩
    | ok v =>
      rcases List.mem_cons.mp hp with h | h
      · obtain ⟨e0, he0⟩ := hf
        rw [h] at he0
        rw [hfa] at he0
        exact absurd he0 (by simp)
      · obtain ⟨e, he⟩ := ih h
        exact ⟨e, by simp [mapExcept, hfa, he, bind, Except.bind]⟩

/-- Claim C9: for all inputs `x1`, `x2`, including a negative difference, the
square-root-of-square implementation `_abs_distance` equals the absolute
difference `|x2 - x1|`. -/
theorem abs_distance_is_abs (x1 x2 : ℚ) : _abs_distance x1 x2 = |x2 - x1| :=
  abs_dist_eq x1 x2

/-- Claim C8: `extract_cars` is deterministic — it is a pure function of the
annotation document and the four numeric parameters (the embedding has no other
inputs: no randomness and no wall clock), so equal inputs give identical output. -/
theorem extract_cars_deterministic (ar ar' : List Entity)
    (fr fr' dist dist' ms ms' md md' : ℚ)
    (h1 : ar = ar') (h2 : fr = fr') (h3 : dist = dist') (h4 : ms = ms') (h5 : md = md') :
    _extract_cars ar fr dist ms md = _extract_cars ar' fr' dist' ms' md' := by
  rw [h1, h2, h3, h4, h5]

theorem extract_cars_deterministic_witness :
    _extract_cars [⟨"car", []⟩] 15 100 1 0 = _extract_cars [⟨"car", []⟩] 15 100 1 0 :=
  extract_cars_deterministic [⟨"car", []⟩] [⟨"car", []⟩] 15 15 100 100 1 1 0 0
    rfl rfl rfl rfl rfl

/-- Claim C4 (amended): a consecutive pair with `steps = i1 - i0 = 0` contributes
no intermediate frames and raises no error (the loop appends just the two
endpoints and continues with the remaining pairs); a pair with `steps < 0`,
however, raises a `ValueError` inside `numpy.linspace(num=steps)`, aborting the
whole interpolation instead of degrading silently. -/
theorem add_missing_frames_nonpositive_steps (i0 i1 : ℤ) (b0 b1 : BB)
    (rest : List (Option (ℤ × BB) × Option (ℤ × BB))) (acc : List (ℤ × BB)) :
    (i1 = i0 → _add_missing_frames_go ((some (i0, b0), some (i1, b1)) :: rest) acc =
      _add_missing_frames_go rest (acc ++ [(i0, b0), (i1, b1)])) ∧
    (i1 < i0 → _add_missing_frames_go ((some (i0, b0), some (i1, b1)) :: rest) acc =
      .error .valueError) := by
  constructor
  · intro h
    subst h
    simp [_add_missing_frames_go, gen_bb_zero, enumFromZ]
  · intro h
    simp [_add_missing_frames_go, show i1 - i0 < 0 from by omega]

theorem add_missing_frames_nonpositive_steps_witness :
    (_add_missing_frames_go [(some ((5 : ℤ), default_bb), some ((5 : ℤ), default_bb))] [] =
      _add_missing_frames_go [] ([] ++ [((5 : ℤ), default_bb), ((5 : ℤ), default_bb)])) ∧
    (_add_missing_frames_go [(some ((3 : ℤ), default_bb), some ((2 : ℤ), default_bb))] [] =
      .error .valueError) :=
  ⟨(add_missing_frames_nonpositive_steps 5 5 default_bb default_bb [] []).1 rfl,
    (add_missing_frames_nonpositive_steps 3 2 default_bb default_bb [] []).2 (by decide)⟩

/-- Claim C4 counterexample: a consecutive pair of raw samples with a negative
frame-index difference does raise an error — `numpy.linspace` rejects the
negative sample count — contradicting "does not raise any error". -/
theorem negative_steps_raise_counterexample :
    _add_missing_frames [some (1, default_bb), some (0, default_bb)] =
      .error .valueError := by
  rfl

/-- Claim C7 (amended): each consecutive pair of raw samples emits both of its
endpoints, so the raw sample shared by two adjacent pairs appears twice in the
interpolator's output sequence — once as the end of one pair's segment and once,
with the identical box, as the start of the next pair's segment.  The duplicate
collapses only later, in the dict merge. -/
theorem shared_endpoint_emitted_twice (x y z : ℤ × BB) (rest : List (ℤ × BB)) :
    allFramesPure (x :: y :: z :: rest) =
      x :: (enumFromZ (x.1 + 1) (_generate_bounding_boxes x.2 y.2 (y.1 - x.1).toNat) ++
        (y :: y :: (enumFromZ (y.1 + 1) (_generate_bounding_boxes y.2 z.2 (z.1 - y.1).toNat) ++
          (z :: allFramesPure (z :: rest))))) := by
  show seg x y ++ (seg y z ++ allFramesPure (z :: rest)) = _
  rw [seg, seg]
  simp [List.append_assoc, List.cons_append]

/-- Claim C7 counterexample: for the three raw samples at frames 0, 1, 2, the
interpolator's output sequence contains the shared endpoint at frame 1 twice, so
a raw sample does appear more than once. -/
theorem shared_endpoint_duplicated_counterexample :
    _add_missing_frames [some (0, default_bb), some (1, default_bb), some (2, default_bb)] =
      .ok [(0, default_bb), (1, default_bb), (1, default_bb), (2, default_bb)] ∧
    ([(0, default_bb), (1, default_bb), (1, default_bb), (2, default_bb)] :
      List (ℤ × BB)).countP (fun p => decide (p.1 = 1)) = 2 := by
  constructor
  · rfl
  · rfl

/-- Claim C5 (code bug): a sample whose time offset fails to parse is mapped to the
`(None, None)` sentinel, but the interpolation/merge pipeline does NOT tolerate and
skip it — building the trajectory raises (a `TypeError` on `None - int` inside
`_add_missing_frames` when the list has two or more samples, or a `TypeError`
inside `_calculate_speed` for a singleton), so no trajectory is built at all. -/
theorem unparseable_offset_raises (idx : ℕ) (annot : Entity) (fr dist : ℚ)
    (h : ∃ f ∈ annot.frames, _time_to_seconds f.timeOffset = none) :
    ∃ e, _parse_annot idx annot fr dist = .error e := by
  obtain ⟨f, hf, hnone⟩ := h
  have hmem : (none : Option (ℤ × BB)) ∈
      annot.frames.map (fun f' => _frame_to_box_lookup f' fr) :=
    List.mem_map.mpr ⟨f, hf, (ftbl_none_iff f fr).mpr hnone⟩
  rcases Nat.lt_or_ge annot.frames.length 2 with hlen | hlen
  · have hlen1 : annot.frames.length = 1 := by
      have : annot.frames ≠ [] := fun he => by
        rw [he] at hf
        simp at hf
      have := List.length_pos.mpr this
      omega
    obtain ⟨f0, hf0⟩ := List.length_eq_one.mp hlen1
    have hfeq : f = f0 := by
      rw [hf0] at hf
      simpa using hf
    refine ⟨.typeError, parse_annot_single_unparseable idx annot fr dist f0 hf0 ?_⟩
    rw [← hfeq]
    exact (ftbl_none_iff f fr).mpr hnone
  · obtain ⟨e, he⟩ := amf_none (annot.frames.map (fun f' => _frame_to_box_lookup f' fr))
      hmem (by simpa using hlen)
    exact ⟨e, parse_annot_amf_error idx annot fr dist e he⟩

theorem unparseable_offset_raises_witness :
    (∃ f ∈ (⟨"car", [⟨"xs", ⟨none, none, none, none⟩⟩, ⟨"1s", ⟨none, none, none, none⟩⟩]⟩ :
        Entity).frames, _time_to_seconds f.timeOffset = none) ∧
    ∃ e, _parse_annot 0
      ⟨"car", [⟨"xs", ⟨none, none, none, none⟩⟩, ⟨"1s", ⟨none, none, none, none⟩⟩]⟩
      15 100 = .error e :=
  ⟨by decide,
    unparseable_offset_raises 0
      ⟨"car", [⟨"xs", ⟨none, none, none, none⟩⟩, ⟨"1s", ⟨none, none, none, none⟩⟩]⟩
      15 100 (by decide)⟩

/-- Claim C10: a car entity with an empty `frames` sequence makes
`_parse_annotation` raise an `IndexError` at `frames[0]`, and `extract_cars` on a
document containing such a car entity propagates the exception: the run aborts
with no output rather than dropping the entity or reporting defaults. -/
theorem empty_frames_aborts (ar : List Entity) (fr dist ms md : ℚ) (ent : Entity)
    (hmem : ent ∈ ar) (hcar : ent.description = "car") (hempty : ent.frames = []) :
    (∀ idx : ℕ, _parse_annot idx ent fr dist = .error .indexError) ∧
    ∃ e, _extract_cars ar fr dist ms md = .error e := by
  have hparse : ∀ idx : ℕ, _parse_annot idx ent fr dist = .error .indexError := by
    intro idx
    simp only [_parse_annot]
    rw [hempty]
    rfl
  refine ⟨hparse, ?_⟩
  have hcars : ent ∈ ar.filter _is_car :=
    List.mem_filter.mpr ⟨hmem, by simp [_is_car, hcar]⟩
  obtain ⟨i, hi⟩ := mem_enumFrom_of_mem hcars 0
  obtain ⟨e, he⟩ := mapExcept_error_of_mem
    (fun p => _parse_annot p.1 p.2 fr dist) ((ar.filter _is_car).enum) (i, ent)
    hi ⟨.indexError, hparse i⟩
  refine ⟨e, ?_⟩
  simp only [_extract_cars]
  rw [he]

theorem empty_frames_aborts_witness :
    (⟨"car", []⟩ : Entity) ∈ [(⟨"car", []⟩ : Entity)] ∧
    (∀ idx : ℕ, _parse_annot idx ⟨"car", []⟩ 15 100 = .error .indexError) ∧
    ∃ e, _extract_cars [⟨"car", []⟩] 15 100 1 0 = .error e :=
  ⟨List.mem_singleton.mpr rfl,
    empty_frames_aborts [⟨"car", []⟩] 15 100 1 0 ⟨"car", []⟩
      (List.mem_singleton.mpr rfl) rfl rfl⟩

/-- Claim C2: `_calculate_speed` depends only on the first and last entries of the
raw (non-interpolated) sample list; when both parse, it returns exactly
`round(3.6 * (distance * |cx_last - cx_first|) / ((last - first) / frame_rate), 2)`
when the elapsed time is strictly positive and `0.0` (no division error) otherwise,
where `cx` is the horizontal centroid `(left + right) / 2`. -/
theorem calculate_speed_first_last (frames : List (Option (ℤ × BB)))
    (frame_rate distance : ℚ) (index : ℕ) (start_time end_time : String)
    (i0 i1 : ℤ) (b0 b1 : BB)
    (hh : frames.head? = some (some (i0, b0)))
    (hl : frames.getLast? = some (some (i1, b1))) :
    _calculate_speed frames frame_rate distance index start_time end_time =
      .ok (if 0 < ((i1 : ℚ) - (i0 : ℚ)) / frame_rate then
        pyRound2 (3.6 * (distance *
          |(b1.left + b1.right) / 2 - (b0.left + b0.right) / 2|) /
          (((i1 : ℚ) - (i0 : ℚ)) / frame_rate))
      else 0) ∧
    ∀ (frames' : List (Option (ℤ × BB))),
      frames'.head? = frames.head? → frames'.getLast? = frames.getLast? →
      _calculate_speed frames' frame_rate distance index start_time end_time =
        _calculate_speed frames frame_rate distance index start_time end_time := by
  constructor
  · have habs : _relative_distance_traveled b0 b1 =
        |(b1.left + b1.right) / 2 - (b0.left + b0.right) / 2| := by
      unfold _relative_distance_traveled _bb_centroid _line_midpoint
      exact abs_dist_eq _ _
    have htime : _frame_number_to_seconds i1 frame_rate -
        _frame_number_to_seconds i0 frame_rate = ((i1 : ℚ) - (i0 : ℚ)) / frame_rate := by
      unfold _frame_number_to_seconds
      rw [sub_div]
    simp only [_calculate_speed, hh, hl, habs, htime]
    refine congrArg Except.ok (if_congr Iff.rfl ?_ rfl)
    rw [_mps_to_khm]
    exact congrArg pyRound2 (by ring)
  · intro frames' h1 h2
    unfold _calculate_speed
    rw [h1, h2]

theorem calculate_speed_first_last_witness :
    _calculate_speed [some (0, ⟨0, 0, 1/10, 1/10⟩), some (30, ⟨9/10, 0, 1, 1/10⟩)]
      15 100 0 "0s" "2s" =
      .ok (if 0 < (((30 : ℤ) : ℚ) - ((0 : ℤ) : ℚ)) / 15 then
        pyRound2 (3.6 * (100 * |((9 : ℚ)/10 + 1) / 2 - ((0 : ℚ) + 1/10) / 2|) /
          ((((30 : ℤ) : ℚ) - ((0 : ℤ) : ℚ)) / 15))
      else 0) :=
  (calculate_speed_first_last
    [some (0, ⟨0, 0, 1/10, 1/10⟩), some (30, ⟨9/10, 0, 1, 1/10⟩)]
    15 100 0 "0s" "2s" 0 30 ⟨0, 0, 1/10, 1/10⟩ ⟨9/10, 0, 1, 1/10⟩ rfl rfl).1

lemma parse_annot_index (idx : ℕ) (annot : Entity) (fr dist : ℚ) (t : Trajectory)
    (h : _parse_annot idx annot fr dist = .ok t) : t.index = idx := by
  simp only [_parse_annot, bind, Except.bind] at h
  repeat' split at h
  all_goals first
    | exact Except.noConfusion h
    | (cases Except.ok.inj h; rfl)

lemma mapExcept_enumFrom_ok (f : ℕ × Entity → Except PyErr Trajectory) (g : ℕ → Trajectory) :
    ∀ (l : List Entity) (n : ℕ),
    (∀ j, j < l.length → f (n + j, l.getD j ⟨"", []⟩) = .ok (g (n + j))) →
    mapExcept f (l.enumFrom n) =
      .ok ((List.range l.length).map (fun j => g (n + j))) := by
  intro l
  induction l with
  | nil =>
    intro n _
    rfl
  | cons a t ih =>
    intro n h
    have h0 : f (n, a) = .ok (g n) := by
      have := h 0 (by simp)
      simpa using this
    have ht : mapExcept f (t.enumFrom (n + 1)) =
        .ok ((List.range t.length).map (fun j => g (n + 1 + j))) := by
      refine ih (n + 1) fun j hj => ?_
      have := h (j + 1) (by simpa using Nat.succ_lt_succ hj)
      rw [show n + (j + 1) = n + 1 + j from by ring] at this
      simpa using this
    show mapExcept f ((n, a) :: t.enumFrom (n + 1)) = _
    simp only [mapExcept, bind, Except.bind, h0, ht, List.length_cons]
    rw [List.range_succ_eq_map, List.map_cons, List.map_map]
    refine congrArg Except.ok (congrArg₂ _ (congrArg g (by omega))
      (List.map_congr_left fun j _ =>
        show g (n + 1 + j) = g (n + (j + 1)) from congrArg g (by omega)))

lemma mapExcept_enum_ok (f : ℕ × Entity → Except PyErr Trajectory) (g : ℕ → Trajectory)
    (l : List Entity)
    (h : ∀ j, j < l.length → f (j, l.getD j ⟨"", []⟩) = .ok (g j)) :
    mapExcept f l.enum = .ok ((List.range l.length).map g) := by
  have hres := mapExcept_enumFrom_ok f g l 0 (fun j hj => by simpa using h j hj)
  rw [show l.enum = l.enumFrom 0 from rfl, hres]
  exact congrArg Except.ok (List.map_congr_left fun j _ => congrArg g (by omega))

/-- Claim C3: on a document where every car entity parses, `extract_cars` returns
exactly the trajectories of the entities with `entity.description = "car"` that
pass the `car_speed ≥ min_speed ∧ rdt ≥ min_distance` filter, in document order;
the index field of the `j`-th detected car (0-based, counted before the
trajectory filter) is `j`, so rejected cars leave gaps in the emitted index
sequence and a surviving car keeps its original index. -/
theorem extract_cars_filter_and_indices (ar : List Entity) (fr dist ms md : ℚ)
    (g : ℕ → Trajectory)
    (hg : ∀ j, j < (ar.filter _is_car).length →
      _parse_annot j ((ar.filter _is_car).getD j ⟨"", []⟩) fr dist = .ok (g j)) :
    _extract_cars ar fr dist ms md =
      .ok (((List.range (ar.filter _is_car).length).map g).filter
        (fun t => _is_car_valid t ms md)) ∧
    ∀ j, j < (ar.filter _is_car).length → (g j).index = j := by
  constructor
  · simp only [_extract_cars]
    rw [mapExcept_enum_ok (fun p => _parse_annot p.1 p.2 fr dist) g (ar.filter _is_car) hg]
  · intro j hj
    exact parse_annot_index j _ fr dist (g j) (hg j hj)

lemma wtime0 : _time_to_seconds "0s" = some 0 := by decide

lemma wlookup0 : _frame_to_box_lookup ⟨"0s", ⟨some 0, some 0, some 0, some 0⟩⟩ 15 =
    some (0, ⟨0, 0, 0, 0⟩) := by
  simp only [_frame_to_box_lookup, wtime0]
  norm_num [_seconds_to_frame_number, pyInt, default_bb]

lemma wlookup1 : _frame_to_box_lookup ⟨"0s", ⟨some 1, none, some 1, none⟩⟩ 15 =
    some (0, ⟨1, 0, 1, 0⟩) := by
  simp only [_frame_to_box_lookup, wtime0]
  norm_num [_seconds_to_frame_number, pyInt, default_bb]

lemma wamf : _add_missing_frames [some ((0 : ℤ), (⟨0, 0, 0, 0⟩ : BB)), some (0, ⟨1, 0, 1, 0⟩)] =
    .ok [(0, ⟨0, 0, 0, 0⟩), (0, ⟨1, 0, 1, 0⟩)] := by rfl

lemma wspeed : _calculate_speed [some ((0 : ℤ), (⟨0, 0, 0, 0⟩ : BB)), some (0, ⟨1, 0, 1, 0⟩)]
    15 100 0 "0s" "0s" = .ok 0 := by
  norm_num [_calculate_speed, _frame_number_to_seconds]

lemma wrdt : _relative_distance_traveled ⟨0, 0, 0, 0⟩ ⟨1, 0, 1, 0⟩ = 1 := by
  norm_num [_relative_distance_traveled, _bb_centroid, _line_midpoint, abs_dist_eq]

lemma wparse : _parse_annot 0 wEnt 15 100 = Except.ok wTraj := by
  simp only [_parse_annot, wEnt, List.map_cons, List.map_nil, wlookup0, wlookup1, wamf,
    bind, Except.bind, List.head?_cons, List.getLast?_singleton, List.getLast?_cons_cons,
    wspeed, wrdt]
  norm_num [wTraj, _merge_lookups, dictInsert]

theorem extract_cars_filter_and_indices_witness :
    (∀ j, j < ([wEnt].filter _is_car).length →
      _parse_annot j (([wEnt].filter _is_car).getD j ⟨"", []⟩) 15 100 =
        .ok ((fun _ : ℕ => wTraj) j)) ∧
    _extract_cars [wEnt] 15 100 0 0 =
      .ok (((List.range ([wEnt].filter _is_car).length).map (fun _ : ℕ => wTraj)).filter
        (fun t => _is_car_valid t 0 0)) ∧
    ∀ j, j < ([wEnt].filter _is_car).length → ((fun _ : ℕ => wTraj) j).index = j := by
  have hg : ∀ j, j < ([wEnt].filter _is_car).length →
      _parse_annot j (([wEnt].filter _is_car).getD j ⟨"", []⟩) 15 100 =
        .ok ((fun _ : ℕ => wTraj) j) := by
    intro j hj
    have hfil : [wEnt].filter _is_car = [wEnt] := rfl
    rw [hfil] at hj ⊢
    have hj0 : j = 0 := by simpa using hj
    subst hj0
    exact wparse
  exact ⟨hg, extract_cars_filter_and_indices [wEnt] 15 100 0 0 (fun _ : ℕ => wTraj) hg⟩

lemma allFramesPure_key_ub (l : List (ℤ × BB)) :
    l.Pairwise (fun p q : ℤ × BB => p.1 < q.1) → ∀ z : ℤ × BB, l.getLast? = some z →
    ∀ q ∈ allFramesPure l, q.1 ≤ z.1 := by
  induction l with
  | nil =>
    intro _ z hz
    simp at hz
  | cons x t ih =>
    intro hmono z hz q hq
    cases t with
    | nil =>
      rw [show allFramesPure [x] = [] from rfl] at hq
      simp at hq
    | cons y rest =>
      obtain ⟨hhead, htail⟩ := List.pairwise_cons.mp hmono
      have hxy : x.1 < y.1 := hhead y (by simp)
      rw [List.getLast?_cons_cons] at hz
      rw [show allFramesPure (x :: y :: rest) = seg x y ++ allFramesPure (y :: rest) from rfl,
        List.mem_append] at hq
      rcases hq with hq | hq
      · have h2 := (seg_key_value x y hxy q hq).2.1
        have hzmem := mem_of_getLast? hz
        rcases List.mem_cons.mp hzmem with h | h
        · have : z.1 = y.1 := by rw [h]
          omega
        · have : y.1 < z.1 := (List.pairwise_cons.mp htail).1 z h
          omega
      · exact ih htail z hz q hq

lemma countP_fst (d : List (ℤ × BB)) (n : ℤ) :
    d.countP (fun p => decide (p.1 = n)) =
      (d.map Prod.fst).countP (fun k => decide (k = n)) := by
  induction d with
  | nil => rfl
  | cons p d ih =>
    by_cases h : p.1 = n <;> simp [List.countP_cons, h, ih]

/-- Claim C6 (amended): for a raw sample list with at least two samples and strictly
increasing parsed frame indices, once interpolation completes the integer keys of
the trajectory frame mapping are exactly the contiguous range from the first
sample's frame index to the last sample's frame index inclusive, with no
duplicate keys; a single-sample list, however, yields an EMPTY mapping (the
pairwise loop body never runs), not the promised one-key range. -/
theorem contiguous_keys (l : List (ℤ × BB))
    (hmono : l.Pairwise (fun p q : ℤ × BB => p.1 < q.1))
    (af : List (ℤ × BB))
    (haf : _add_missing_frames (l.map some) = .ok af) :
    (∀ x z : ℤ × BB, l.head? = some x → l.getLast? = some z → 2 ≤ l.length →
      (((af.foldl _merge_lookups []).map Prod.fst).Nodup ∧
        ∀ n : ℤ, n ∈ (af.foldl _merge_lookups []).map Prod.fst ↔ x.1 ≤ n ∧ n ≤ z.1)) ∧
    ∀ w : ℤ × BB, l = [w] → af.foldl _merge_lookups [] = [] := by
  have hchain : l.Chain' (fun a b : ℤ × BB => a.1 ≤ b.1) :=
    List.Chain'.imp (fun a b hab => le_of_lt hab) (List.Pairwise.chain' hmono)
  have hafeq : af = allFramesPure l := by
    have h2 := add_missing_frames_map_some l hchain
    rw [haf] at h2
    exact Except.ok.inj h2
  subst hafeq
  constructor
  · intro x z hx hz hlen
    refine ⟨nodup_keys_foldl_merge _ [] (by simp), fun n => ⟨fun hn => ?_, fun hn => ?_⟩⟩
    · rw [keys_foldl_merge] at hn
      rcases hn with hn | hn
      · simp at hn
      · obtain ⟨q, hq, hqn⟩ := List.mem_map.mp hn
        obtain ⟨t, ht⟩ : ∃ t, l = x :: t := by
          cases l with
          | nil => simp at hx
          | cons a t =>
            rw [List.head?_cons, Option.some.injEq] at hx
            exact ⟨t, by rw [hx]⟩
        have hlb : ∀ p ∈ l, x.1 ≤ p.1 := by
          rw [ht]
          intro p hp
          rcases List.mem_cons.mp hp with h | h
          · rw [h]
          · exact le_of_lt ((List.pairwise_cons.mp (ht ▸ hmono)).1 p h)
        have h1 := allFramesPure_key_lb x.1 l hlb q hq
        have h2 := allFramesPure_key_ub l hmono z hz q hq
        rw [← hqn]
        exact ⟨h1, h2⟩
    · obtain ⟨pre, post, u, v, heq, hu, hv⟩ :=
        exists_cover_pair l x z hx hz n hn.1 hn.2 hlen
      have huv : u.1 < v.1 := by
        have hm := hmono
        rw [heq] at hm
        have hp2 := (List.pairwise_append.mp hm).2.1
        exact (List.pairwise_cons.mp hp2).1 v (by simp)
      have hcov := allFramesPure_covers l pre post u v heq huv n hu hv
      rw [keys_foldl_merge]
      exact Or.inr hcov
  · intro w hw
    subst hw
    rfl

lemma wamf1 : _add_missing_frames [some ((0 : ℤ), (⟨0, 0, 0, 0⟩ : BB))] = .ok [] := rfl

lemma wspeed1 : _calculate_speed [some ((0 : ℤ), (⟨0, 0, 0, 0⟩ : BB))] 15 100 0 "0s" "0s" =
    .ok 0 := by
  norm_num [_calculate_speed, _frame_number_to_seconds]

lemma wrdt0 : _relative_distance_traveled ⟨0, 0, 0, 0⟩ ⟨0, 0, 0, 0⟩ = 0 := by
  norm_num [_relative_distance_traveled, _bb_centroid, _line_midpoint, abs_dist_eq]

/-- Claim C6 counterexample: a single raw sample, parsing cleanly to frame index 0,
produces a trajectory whose frame mapping is EMPTY — it does not contain the
one-element contiguous range `[0, 0]` the invariant requires, because the
pairwise interpolation loop emits nothing for a singleton list. -/
theorem single_sample_empty_mapping :
    _frame_to_box_lookup ⟨"0s", ⟨some 0, some 0, some 0, some 0⟩⟩ 15 =
      some (0, ⟨0, 0, 0, 0⟩) ∧
    _parse_annot 0 ⟨"car", [⟨"0s", ⟨some 0, some 0, some 0, some 0⟩⟩]⟩ 15 100 =
      .ok ⟨[], "0s", "0s", 0, 0, 0⟩ := by
  refine ⟨wlookup0, ?_⟩
  simp only [_parse_annot, List.map_cons, List.map_nil, wlookup0, wamf1, bind, Except.bind,
    List.head?_cons, List.getLast?_singleton, wspeed1, wrdt0]
  rfl

theorem contiguous_keys_witness :
    (1 : ℤ) ∈ (([((0 : ℤ), default_bb), (1, default_bb)] : List (ℤ × BB)).foldl
      _merge_lookups []).map Prod.fst ↔ ((0 : ℤ) ≤ 1 ∧ (1 : ℤ) ≤ 1) :=
  ((contiguous_keys [(0, default_bb), (1, default_bb)]
    (by norm_num [List.pairwise_cons]) [(0, default_bb), (1, default_bb)] rfl).1
    (0, default_bb) (1, default_bb) rfl rfl (by norm_num)).2 1

/-- Claim C1: on a fully parsed raw sample list with strictly increasing frame
indices, for any two consecutive raw samples `(i0, b0)` and `(i1, b1)` the merged
trajectory mapping contains exactly one entry for every integer frame index
`i0 + k` with `0 ≤ k ≤ i1 - i0`; the entry at `i0 + k` is the exact
component-wise linear interpolation `b0 + (b1 - b0) * k / (i1 - i0)`, and the
entries at `i0` and `i1` are exactly the raw boxes `b0` and `b1`. -/
theorem interpolation_dense_and_linear (l : List (ℤ × BB))
    (hmono : l.Pairwise (fun p q : ℤ × BB => p.1 < q.1))
    (pre post : List (ℤ × BB)) (i0 i1 : ℤ) (b0 b1 : BB)
    (hl : l = pre ++ (i0, b0) :: (i1, b1) :: post)
    (af : List (ℤ × BB))
    (haf : _add_missing_frames (l.map some) = .ok af) :
    (∀ k : ℤ, 0 ≤ k → k ≤ i1 - i0 →
      (af.foldl _merge_lookups []).countP (fun p => decide (p.1 = i0 + k)) = 1 ∧
      (af.foldl _merge_lookups []).lookup (i0 + k) =
        some (lerpBB b0 b1 k (i1 - i0))) ∧
    (af.foldl _merge_lookups []).lookup i0 = some b0 ∧
    (af.foldl _merge_lookups []).lookup i1 = some b1 := by
  have hchain : l.Chain' (fun a b : ℤ × BB => a.1 ≤ b.1) :=
    List.Chain'.imp (fun a b hab => le_of_lt hab) (List.Pairwise.chain' hmono)
  have hafeq : af = allFramesPure l := by
    have h2 := add_missing_frames_map_some l hchain
    rw [haf] at h2
    exact Except.ok.inj h2
  subst hafeq
  have h01 : i0 < i1 := by
    have hm := hmono
    rw [hl] at hm
    have hp2 := (List.pairwise_append.mp hm).2.1
    exact (List.pairwise_cons.mp hp2).1 (i1, b1) (by simp)
  have hmain : ∀ k : ℤ, 0 ≤ k → k ≤ i1 - i0 →
      ((allFramesPure l).foldl _merge_lookups []).countP
        (fun p => decide (p.1 = i0 + k)) = 1 ∧
      ((allFramesPure l).foldl _merge_lookups []).lookup (i0 + k) =
        some (lerpBB b0 b1 k (i1 - i0)) := by
    intro k hk0 hk1
    have hmem : (i0 + k) ∈ (allFramesPure l).map Prod.fst :=
      allFramesPure_covers l pre post (i0, b0) (i1, b1) hl h01 (i0 + k)
        (by omega) (by omega)
    have hmemd : (i0 + k) ∈ (((allFramesPure l).foldl _merge_lookups []).map Prod.fst) :=
      (keys_foldl_merge _ _ _).mpr (Or.inr hmem)
    have hnd : (((allFramesPure l).foldl _merge_lookups []).map Prod.fst).Nodup :=
      nodup_keys_foldl_merge _ [] (by simp)
    constructor
    · rw [countP_fst]
      exact countP_key_eq_one _ _ hnd hmemd
    · have hv : ∀ q ∈ allFramesPure l, q.1 = i0 + k →
          q.2 = lerpBB b0 b1 k (i1 - i0) := by
        intro q hq hqk
        have hval := allFramesPure_value l hmono pre post (i0, b0) (i1, b1) hl q hq
          (by dsimp only; omega) (by dsimp only; omega)
        dsimp only at hval
        rw [hval, hqk, show i0 + k - i0 = k from by ring]
      rw [lookup_foldl_merge _ _ _ _ hv, if_pos hmem]
  refine ⟨hmain, ?_, ?_⟩
  · have h := (hmain 0 le_rfl (by omega)).2
    rw [add_zero, lerpBB_zero] at h
    exact h
  · have h := (hmain (i1 - i0) (by omega) le_rfl).2
    rw [show i0 + (i1 - i0) = i1 from by ring, lerpBB_full _ _ _ (by omega)] at h
    exact h

theorem interpolation_dense_and_linear_witness :
    (([((0 : ℤ), default_bb), (1, default_bb)] : List (ℤ × BB)).foldl _merge_lookups
      []).lookup 0 = some default_bb :=
  (interpolation_dense_and_linear [(0, default_bb), (1, default_bb)]
    (by norm_num [List.pairwise_cons]) [] [] 0 1 default_bb default_bb rfl
    [(0, default_bb), (1, default_bb)] rfl).2.1

lemma wtdA : takeDigits ['0', '.', '1', 's'] = (['0'], ['.', '1', 's']) := by decide

lemma wtdB : takeDigits ['1', 's'] = (['1'], ['s']) := by decide

lemma wdv0 : digitsVal ['0'] = 0 := by decide

lemma wdv1 : digitsVal ['1'] = 1 := by decide

lemma wtime01 : _time_to_seconds "0.1s" = some (1/10) := by
  have hdata : "0.1s".data = ['0', '.', '1', 's'] := rfl
  simp only [_time_to_seconds, hdata, wtdA, wtdB, wdv0, wdv1]
  norm_num

lemma wlookup01Z : _frame_to_box_lookup ⟨"0.1s", ⟨some 0, some 0, some 0, some 0⟩⟩ 15 =
    some (1, ⟨0, 0, 0, 0⟩) := by
  simp only [_frame_to_box_lookup, wtime01]
  norm_num [_seconds_to_frame_number, pyInt, default_bb]

lemma wlookup01O : _frame_to_box_lookup ⟨"0.1s", ⟨some 0, some 1, some 0, some 1⟩⟩ 15 =
    some (1, ⟨0, 1, 0, 1⟩) := by
  simp only [_frame_to_box_lookup, wtime01]
  norm_num [_seconds_to_frame_number, pyInt, default_bb]

lemma wrdtZO : _relative_distance_traveled ⟨0, 0, 0, 0⟩ ⟨0, 1, 0, 1⟩ = 0 := by
  norm_num [_relative_distance_traveled, _bb_centroid, _line_midpoint, abs_dist_eq]

lemma wspeed3 : _calculate_speed
    [some ((0 : ℤ), (⟨0, 0, 0, 0⟩ : BB)), some (1, ⟨0, 0, 0, 0⟩), some (1, ⟨0, 1, 0, 1⟩)]
    15 100 0 "0s" "0.1s" = .ok 0 := by
  simp only [_calculate_speed, List.head?_cons, List.getLast?_cons_cons,
    List.getLast?_singleton, wrdtZO]
  norm_num [_frame_number_to_seconds, _mps_to_khm, pyRound2]

lemma wamf3 : _add_missing_frames
    [some ((0 : ℤ), (⟨0, 0, 0, 0⟩ : BB)), some (1, ⟨0, 0, 0, 0⟩), some (1, ⟨0, 1, 0, 1⟩)] =
    .ok [(0, ⟨0, 0, 0, 0⟩), (1, ⟨0, 0, 0, 0⟩), (1, ⟨0, 0, 0, 0⟩), (1, ⟨0, 1, 0, 1⟩)] := by
  rfl

lemma wparse3 : _parse_annot 0
    ⟨"car", [⟨"0s", ⟨some 0, some 0, some 0, some 0⟩⟩,
      ⟨"0.1s", ⟨some 0, some 0, some 0, some 0⟩⟩,
      ⟨"0.1s", ⟨some 0, some 1, some 0, some 1⟩⟩]⟩ 15 100 =
    .ok ⟨[(0, ⟨0, 0, 0, 0⟩), (1, ⟨0, 1, 0, 1⟩)], "0s", "0.1s", 0, 0, 0⟩ := by
  simp only [_parse_annot, List.map_cons, List.map_nil, wlookup0, wlookup01Z, wlookup01O,
    wamf3, bind, Except.bind, List.head?_cons, List.getLast?_cons_cons,
    List.getLast?_singleton, wspeed3, wrdtZO]
  norm_num [_merge_lookups, dictInsert]

/-- Claim C1 counterexample: the consecutive raw samples at frames 0 and 1 both
parse and have strictly increasing indices, but a LATER sample whose time offset
parses to the same frame index 1 overwrites the pair's endpoint in the dict
merge, so the built mapping's entry at frame 1 is that later box, not the pair's
raw box `b1` — the endpoint-equality part of the claim fails. -/
theorem interpolation_endpoint_overwritten :
    _frame_to_box_lookup ⟨"0s", ⟨some 0, some 0, some 0, some 0⟩⟩ 15 =
      some (0, ⟨0, 0, 0, 0⟩) ∧
    _frame_to_box_lookup ⟨"0.1s", ⟨some 0, some 0, some 0, some 0⟩⟩ 15 =
      some (1, ⟨0, 0, 0, 0⟩) ∧
    _frame_to_box_lookup ⟨"0.1s", ⟨some 0, some 1, some 0, some 1⟩⟩ 15 =
      some (1, ⟨0, 1, 0, 1⟩) ∧
    _parse_annot 0
      ⟨"car", [⟨"0s", ⟨some 0, some 0, some 0, some 0⟩⟩,
        ⟨"0.1s", ⟨some 0, some 0, some 0, some 0⟩⟩,
        ⟨"0.1s", ⟨some 0, some 1, some 0, some 1⟩⟩]⟩ 15 100 =
      .ok ⟨[(0, ⟨0, 0, 0, 0⟩), (1, ⟨0, 1, 0, 1⟩)], "0s", "0.1s", 0, 0, 0⟩ ∧
    ([(0, ⟨0, 0, 0, 0⟩), (1, ⟨0, 1, 0, 1⟩)] : List (ℤ × BB)).lookup 1 =
      some ⟨0, 1, 0, 1⟩ ∧
    (⟨0, 1, 0, 1⟩ : BB) ≠ ⟨0, 0, 0, 0⟩ :=
  ⟨wlookup0, wlookup01Z, wlookup01O, wparse3, by rfl, by decide⟩
